import Mathlib

/-!
Verification of `etgtools/pi_generator.py` (wxPython Phoenix "Python
Interface" stub generator).

The development shallowly embeds the two components the claims are about:

* the section merge writer `PiWrapperGenerator.writeSection`, modelled as a
  pure transformation on file content (`writeSectionC` below), with Python
  `readlines`, `str.startswith` and list slice-assignment semantics spelled
  out explicitly; and

* the dispatch tree walker / text emitter (`generateModule`,
  `generateFunction`, `generateMethod`, `generateEnum`, `generateClass`,
  `_generateProperty`, ...), modelled as string-emitting functions over an
  explicit tree data model.

External collaborators that are not part of the source file
(`nci` re-indentation, `fixWxPrefix`, `cleanType`, `magicMethods`,
`guessType*`) are kept as abstract function parameters, as the spec treats
them as external pure functions.
-/

namespace Phoenix

/-- Python `or` on two strings: the first operand unless it is empty
(falsy), in which case the second. -/
def pyOr (a b : String) : String := if a = "" then b else a

/-- Boolean prefix test on character lists, mirroring Python
`str.startswith`. -/
def isPre : List Char → List Char → Bool
  | [], _ => true
  | _ :: _, [] => false
  | a :: as, b :: bs => a == b && isPre as bs

theorem isPre_append (p r : List Char) : isPre p (p ++ r) = true := by
  induction p with
  | nil => rfl
  | cons a as ih => simp [isPre, ih]

theorem isPre_refl (p : List Char) : isPre p p = true := by
  have h := isPre_append p []
  simpa using h

theorem isPre_iff (p l : List Char) : isPre p l = true ↔ ∃ r, l = p ++ r := by
  constructor
  · intro h
    induction p generalizing l with
    | nil => exact ⟨l, rfl⟩
    | cons a as ih =>
      cases l with
      | nil => simp [isPre] at h
      | cons b bs =>
        simp [isPre] at h
        obtain ⟨r, hr⟩ := ih bs h.2
        exact ⟨r, by simp [h.1, hr]⟩
  · rintro ⟨r, rfl⟩
    exact isPre_append p r

/-- Python `readlines` on a character list: split after each newline,
keeping the terminators; a final fragment without a newline is kept as a
last line. -/
def splitLinesAux : List Char → List Char → List (List Char)
  | [], acc => if acc.isEmpty then [] else [acc.reverse]
  | c :: cs, acc =>
      if c == '\n' then (acc.reverse ++ [c]) :: splitLinesAux cs []
      else splitLinesAux cs (c :: acc)

def splitLinesC (cs : List Char) : List (List Char) := splitLinesAux cs []

/-- Concatenating a list of lines back into file content
(Python `f.writelines`). -/
def joinC (ls : List (List Char)) : List Char := ls.foldr (· ++ ·) []

theorem joinC_nil : joinC [] = [] := rfl

theorem joinC_cons (l : List Char) (ls : List (List Char)) :
    joinC (l :: ls) = l ++ joinC ls := rfl

theorem joinC_append (xs ys : List (List Char)) :
    joinC (xs ++ ys) = joinC xs ++ joinC ys := by
  induction xs with
  | nil => rfl
  | cons x xs ih => simp [joinC_cons, ih, List.append_assoc]

theorem joinC_splitLinesAux (cs acc : List Char) :
    joinC (splitLinesAux cs acc) = acc.reverse ++ cs := by
  induction cs generalizing acc with
  | nil =>
    by_cases h : acc.isEmpty
    · simp [splitLinesAux, h, joinC]
      simpa [List.isEmpty_iff] using h
    · simp [splitLinesAux, h, joinC]
  | cons c cs ih =>
    by_cases h : c == '\n'
    · have hc : c = '\n' := by simpa using h
      simp [splitLinesAux, hc, joinC_cons, ih]
    · simp [splitLinesAux, h, ih]

/-- `readlines` then `writelines` is the identity on file content. -/
theorem joinC_splitLinesC (cs : List Char) : joinC (splitLinesC cs) = cs := by
  simpa using joinC_splitLinesAux cs []

/-- A properly terminated line: ends with a newline, and that newline is
the only one it contains. -/
def termLine : List Char → Bool
  | [] => false
  | [c] => c == '\n'
  | c :: cs => c != '\n' && termLine cs

theorem termLine_cons_cons (c d : Char) (ds : List Char) :
    termLine (c :: d :: ds) = (c != '\n' && termLine (d :: ds)) := rfl

theorem termLine_iff (l : List Char) :
    termLine l = true ↔ ∃ m, l = m ++ ['\n'] ∧ '\n' ∉ m := by
  constructor
  · intro h
    induction l with
    | nil => simp [termLine] at h
    | cons c cs ih =>
      cases cs with
      | nil =>
        simp [termLine] at h
        exact ⟨[], by simp [h]⟩
      | cons d ds =>
        rw [termLine_cons_cons] at h
        simp only [Bool.and_eq_true, bne_iff_ne, ne_eq] at h
        obtain ⟨m, hm, hnm⟩ := ih h.2
        refine ⟨c :: m, by simp [hm], ?_⟩
        intro hmem
        rcases List.mem_cons.1 hmem with h1 | h2
        · exact h.1 h1.symm
        · exact hnm h2
  · rintro ⟨m, rfl, hm⟩
    induction m with
    | nil => rfl
    | cons c cs ih =>
      have hc : c ≠ '\n' := fun h => hm (h ▸ List.mem_cons_self c cs)
      have hcs : '\n' ∉ cs := fun h => hm (List.mem_cons_of_mem _ h)
      cases cs with
      | nil => simp [termLine, hc]
      | cons d ds =>
        have hrec := ih hcs
        show (c != '\n' && termLine (d :: (ds ++ ['\n']))) = true
        simp only [Bool.and_eq_true, bne_iff_ne, ne_eq]
        exact ⟨hc, hrec⟩

theorem termLine_append_newline (m : List Char) (hm : '\n' ∉ m) :
    termLine (m ++ ['\n']) = true :=
  (termLine_iff _).2 ⟨m, rfl, hm⟩

theorem splitLinesAux_term (m t acc : List Char) (hm : '\n' ∉ m) :
    splitLinesAux (m ++ '\n' :: t) acc
      = (acc.reverse ++ m ++ ['\n']) :: splitLinesAux t [] := by
  induction m generalizing acc with
  | nil => simp [splitLinesAux]
  | cons c cs ih =>
    have hc : c ≠ '\n' := fun h => hm (h ▸ List.mem_cons_self c cs)
    have hcs : '\n' ∉ cs := fun h => hm (List.mem_cons_of_mem _ h)
    simp [splitLinesAux, hc, ih _ hcs]

/-- Splitting a concatenation of properly terminated lines recovers
exactly those lines. -/
theorem splitLinesC_joinC (ls : List (List Char))
    (h : ∀ l ∈ ls, termLine l = true) : splitLinesC (joinC ls) = ls := by
  induction ls with
  | nil => rfl
  | cons l ls ih =>
    obtain ⟨m, rfl, hm⟩ := (termLine_iff l).1 (h l (List.mem_cons_self _ _))
    have hrest : ∀ x ∈ ls, termLine x = true :=
      fun x hx => h x (List.mem_cons_of_mem _ hx)
    have key := splitLinesAux_term m (joinC ls) [] hm
    simp only [List.reverse_nil, List.nil_append] at key
    show splitLinesAux (joinC ((m ++ ['\n']) :: ls)) [] = (m ++ ['\n']) :: ls
    rw [joinC_cons, List.append_assoc, List.singleton_append, key]
    rw [← splitLinesC, ih hrest]

/-- The index of the last line satisfying `p`, as an `Int`, `-1` when no
line matches.  This mirrors the `for idx, line in enumerate(lines)` loop of
`writeSection`, which overwrites the recorded index at every match, hence
keeps the last one. -/
def lastIdxWith (p : List Char → Bool) : List (List Char) → Int
  | [] => -1
  | l :: ls =>
      if lastIdxWith p ls = -1 then (if p l then 0 else -1)
      else lastIdxWith p ls + 1

theorem lastIdxWith_ge (p : List Char → Bool) (ls : List (List Char)) :
    -1 ≤ lastIdxWith p ls := by
  induction ls with
  | nil => simp [lastIdxWith]
  | cons l ls ih =>
    simp only [lastIdxWith]
    by_cases h : lastIdxWith p ls = -1
    · by_cases hp : p l <;> simp [h, hp]
    · rw [if_neg h]; omega

theorem lastIdxWith_of_none (p : List Char → Bool) (ls : List (List Char))
    (h : ∀ l ∈ ls, p l = false) : lastIdxWith p ls = -1 := by
  induction ls with
  | nil => rfl
  | cons l ls ih =>
    have hl : p l = false := h l (List.mem_cons_self _ _)
    have hr : lastIdxWith p ls = -1 :=
      ih (fun x hx => h x (List.mem_cons_of_mem _ hx))
    simp [lastIdxWith, hr, hl]

theorem lastIdxWith_none_iff (p : List Char → Bool) (ls : List (List Char)) :
    lastIdxWith p ls = -1 ↔ ∀ l ∈ ls, p l = false := by
  induction ls with
  | nil => simp [lastIdxWith]
  | cons x xs ih =>
    simp only [lastIdxWith]
    by_cases hr : lastIdxWith p xs = -1
    · by_cases hp : p x
      · simp [hr, hp, List.forall_mem_cons]
      · simp [hr, hp, List.forall_mem_cons]
        exact ih.1 hr
    · rw [if_neg hr]
      have hge := lastIdxWith_ge p xs
      constructor
      · intro h; omega
      · intro hall
        exact ((hr (lastIdxWith_of_none p xs
          (fun y hy => (List.forall_mem_cons.1 hall).2 y hy)))).elim

theorem lastIdxWith_concat (p : List Char → Bool) (xs ys : List (List Char))
    (l : List Char) (hl : p l = true) (hys : ∀ y ∈ ys, p y = false) :
    lastIdxWith p (xs ++ l :: ys) = (xs.length : Int) := by
  induction xs with
  | nil =>
    have hr : lastIdxWith p ys = -1 := lastIdxWith_of_none p ys hys
    simp [lastIdxWith, hr, hl]
  | cons x xs ih =>
    have hx : lastIdxWith p (xs ++ l :: ys) = (xs.length : Int) := ih
    rw [List.cons_append]
    simp only [lastIdxWith, hx]
    rw [if_neg (by omega)]
    simp only [List.length_cons]
    omega

theorem lastIdxWith_decomp (p : List Char → Bool) (ls : List (List Char))
    (h : 0 ≤ lastIdxWith p ls) :
    ∃ xs l ys, ls = xs ++ l :: ys ∧ (xs.length : Int) = lastIdxWith p ls ∧
      p l = true ∧ ∀ y ∈ ys, p y = false := by
  induction ls with
  | nil => simp [lastIdxWith] at h
  | cons x xs ih =>
    simp only [lastIdxWith] at h ⊢
    by_cases hr : lastIdxWith p xs = -1
    · rw [if_pos hr] at h ⊢
      by_cases hp : p x
      · refine ⟨[], x, xs, by simp, by simp [hp], hp, ?_⟩
        exact (lastIdxWith_none_iff p xs).1 hr
      · simp [hp] at h
    · rw [if_neg hr] at h ⊢
      have hge := lastIdxWith_ge p xs
      have h0 : 0 ≤ lastIdxWith p xs := by omega
      obtain ⟨as, l, ys, rfl, hlen, hpl, hys⟩ := ih h0
      refine ⟨x :: as, l, ys, by simp, ?_, hpl, hys⟩
      simp only [List.length_cons]
      omega

/-- Normalize a Python index for a list of length `len`: negative indices
count from the end (clamped at 0), non-negative ones are clamped at
`len`. -/
def pyIdx (len : Nat) (i : Int) : Nat :=
  if i < 0 then ((len : Int) + i).toNat else min i.toNat len

/-- Python list slice assignment `l[i:j] = r`. -/
def sliceAssign {α : Type} (l : List α) (i j : Int) (r : List α) : List α :=
  let i' := pyIdx l.length i
  let j' := max i' (pyIdx l.length j)
  l.take i' ++ r ++ l.drop j'

theorem pyIdx_of_nonneg (len : Nat) (i : Int) (h0 : 0 ≤ i)
    (hle : i ≤ (len : Int)) : pyIdx len i = i.toNat := by
  simp only [pyIdx, if_neg (by omega : ¬ i < 0)]
  omega

theorem sliceAssign_of_le {α : Type} (l : List α) (i j : Int) (r : List α)
    (h0 : 0 ≤ i) (hij : i ≤ j) (hj : j ≤ (l.length : Int)) :
    sliceAssign l i j r = l.take i.toNat ++ r ++ l.drop j.toNat := by
  have hi : pyIdx l.length i = i.toNat := pyIdx_of_nonneg _ _ h0 (by omega)
  have hjj : pyIdx l.length j = j.toNat := pyIdx_of_nonneg _ _ (by omega) hj
  simp only [sliceAssign, hi, hjj]
  rw [max_eq_right (by omega)]

theorem take_append_cons {α : Type} (xs : List α) (y : α) (ys : List α) :
    (xs ++ y :: ys).take (xs.length + 1) = xs ++ [y] := by
  rw [show xs ++ y :: ys = (xs ++ [y]) ++ ys by simp]
  rw [show xs.length + 1 = (xs ++ [y]).length by simp]
  exact List.take_left _ _

theorem drop_append_cons {α : Type} (xs : List α) (y : α) (ys : List α) :
    (xs ++ y :: ys).drop xs.length = y :: ys :=
  List.drop_left _ _

/-- The begin marker for a section: `'#-- begin-%s --#' % sectionName`. -/
def beginMarker (sectionName : List Char) : List Char :=
  ("#-- begin-").data ++ sectionName ++ (" --#").data

/-- The end marker for a section: `'#-- end-%s --#' % sectionName`. -/
def endMarker (sectionName : List Char) : List Char :=
  ("#-- end-").data ++ sectionName ++ (" --#").data

/-- The index after which the section is inserted when missing and
`at_end` is false: Python scans `for idx, line in enumerate(lines)` and
breaks at the first line not starting with `'#'`; if no line breaks the
loop, `idx` ends at `len - 1` (or stays 0 for an empty file). -/
def headerIdxC (lines : List (List Char)) : Nat :=
  match lines.findIdx? (fun l => !(isPre (("#").data) l)) with
  | some i => i
  | none => lines.length - 1

/-- `PiWrapperGenerator.writeSection`, as a pure transformation of the
destination file content (the file system read/write wrapper around it is
not modelled): read all lines, find the (last) begin/end marker lines,
then either replace the lines strictly between the markers, append the
marked section at the end, or insert it after the leading header. -/
def writeSectionC (sectionName : List Char) (sectionText : List Char)
    (atEnd : Bool) (content : List Char) : List Char :=
  let bm := beginMarker sectionName
  let em := endMarker sectionName
  let lines := splitLinesC content
  let sectionBeginLine := lastIdxWith (fun l => isPre bm l) lines
  let sectionEndLine := lastIdxWith (fun l => isPre em l) lines
  let lines' :=
    if sectionBeginLine = -1 then
      if atEnd then
        lines ++ [bm ++ ['\n'], sectionText, em ++ ['\n']]
      else
        let idx := headerIdxC lines
        sliceAssign lines ((idx : Int) + 1) ((idx : Int) + 1)
          [bm ++ ['\n'], sectionText, em ++ ['\n']]
    else
      sliceAssign lines (sectionBeginLine + 1) sectionEndLine [sectionText]
  joinC lines'

/-- String-level wrapper for `writeSectionC`. -/
def writeSection (sectionName sectionText : String) (atEnd : Bool)
    (content : String) : String :=
  ⟨writeSectionC sectionName.data sectionText.data atEnd content.data⟩

theorem length_decomp (P M S : List (List Char)) (bL eL : List Char) :
    (P ++ bL :: (M ++ eL :: S)).length = P.length + 1 + M.length + 1 + S.length := by
  simp; omega

/-- Core behaviour of `writeSection` when the line list decomposes around a
(last) begin-marker line `bL` and a (last) end-marker line `eL` with the
begin marker strictly first: the lines strictly between them are replaced
by the new text, everything else is untouched. -/
theorem writeSectionC_replace (name text : List Char)
    (P M S : List (List Char)) (bL eL : List Char) (atEnd : Bool)
    (content : List Char)
    (hsplit : splitLinesC content = P ++ bL :: (M ++ eL :: S))
    (hbL : isPre (beginMarker name) bL = true)
    (heL : isPre (endMarker name) eL = true)
    (hnb : ∀ l ∈ M ++ eL :: S, isPre (beginMarker name) l = false)
    (hne : ∀ l ∈ S, isPre (endMarker name) l = false) :
    writeSectionC name text atEnd content
      = joinC P ++ (bL ++ (text ++ (eL ++ joinC S))) := by
  have hb : lastIdxWith (fun l => isPre (beginMarker name) l)
      (splitLinesC content) = (P.length : Int) := by
    rw [hsplit]
    exact lastIdxWith_concat _ P (M ++ eL :: S) bL hbL hnb
  have he : lastIdxWith (fun l => isPre (endMarker name) l)
      (splitLinesC content) = ((P.length + 1 + M.length : Nat) : Int) := by
    rw [hsplit, show P ++ bL :: (M ++ eL :: S) = (P ++ bL :: M) ++ eL :: S by simp]
    rw [lastIdxWith_concat _ (P ++ bL :: M) S eL heL hne]
    simp
    omega
  have hlen : (splitLinesC content).length
      = P.length + 1 + M.length + 1 + S.length := by
    rw [hsplit]; exact length_decomp P M S bL eL
  simp only [writeSectionC, hb, he]
  rw [if_neg (by omega)]
  rw [sliceAssign_of_le _ _ _ _ (by omega) (by push_cast; omega)
    (by rw [hlen]; push_cast; omega)]
  have htake : (splitLinesC content).take ((P.length : Int) + 1).toNat
      = P ++ [bL] := by
    rw [hsplit, show ((P.length : Int) + 1).toNat = P.length + 1 by omega]
    exact take_append_cons P bL (M ++ eL :: S)
  have hdrop : (splitLinesC content).drop
      (((P.length + 1 + M.length : Nat) : Int)).toNat = eL :: S := by
    rw [hsplit, show (((P.length + 1 + M.length : Nat) : Int)).toNat
      = (P ++ bL :: M).length by simp; omega]
    rw [show P ++ bL :: (M ++ eL :: S) = (P ++ bL :: M) ++ eL :: S by simp]
    exact drop_append_cons (P ++ bL :: M) eL S
  rw [htake, hdrop]
  rw [show P ++ [bL] ++ [text] ++ eL :: S = P ++ ([bL] ++ ([text] ++ ([eL] ++ S)))
    by simp]
  rw [joinC_append, joinC_append, joinC_append]
  simp [joinC_cons, joinC_nil]

/-- No line can start with both markers of one section: they differ at the
fifth character (`b` versus `e`). -/
theorem not_both_markers (name l : List Char)
    (hb : isPre (beginMarker name) l = true)
    (he : isPre (endMarker name) l = true) : False := by
  obtain ⟨r, hr⟩ := (isPre_iff _ _).1 hb
  obtain ⟨s, hs⟩ := (isPre_iff _ _).1 he
  rw [hr] at hs
  have hb10 : ("#-- begin-").data
      = ['#', '-', '-', ' ', 'b', 'e', 'g', 'i', 'n', '-'] := rfl
  have he8 : ("#-- end-").data = ['#', '-', '-', ' ', 'e', 'n', 'd', '-'] := rfl
  simp only [beginMarker, endMarker, hb10, he8, List.cons_append,
    List.append_assoc] at hs
  simp at hs

theorem not_isPre_begin_of_end (name l : List Char)
    (he : isPre (endMarker name) l = true) :
    isPre (beginMarker name) l = false := by
  by_contra h
  exact not_both_markers name l (by simpa using h) he

theorem not_isPre_end_of_begin (name l : List Char)
    (hb : isPre (beginMarker name) l = true) :
    isPre (endMarker name) l = false := by
  by_contra h
  exact not_both_markers name l hb (by simpa using h)

theorem newline_not_mem_beginMarker (name : List Char) (h : ('\n') ∉ name) :
    ('\n') ∉ beginMarker name := by
  intro hmem
  simp only [beginMarker, List.mem_append] at hmem
  rcases hmem with (h1 | h2) | h3
  · exact absurd h1 (by decide)
  · exact h h2
  · exact absurd h3 (by decide)

theorem newline_not_mem_endMarker (name : List Char) (h : ('\n') ∉ name) :
    ('\n') ∉ endMarker name := by
  intro hmem
  simp only [endMarker, List.mem_append] at hmem
  rcases hmem with (h1 | h2) | h3
  · exact absurd h1 (by decide)
  · exact h h2
  · exact absurd h3 (by decide)

/-- C4: if the file's lines decompose as `P ++ bL :: M ++ eL :: S` where
`bL` is the only line starting with the begin marker and `eL` the only
line starting with the end marker (begin strictly before end), then
`writeSection` replaces exactly the lines strictly between the markers
with the new body: all bytes before the begin-marker line and from the
end-marker line onward are unchanged, and the marker lines are kept
once. -/
theorem C4_frame_effect (name text content : String) (atEnd : Bool)
    (P M S : List (List Char)) (bL eL : List Char)
    (hsplit : splitLinesC content.data = P ++ bL :: (M ++ eL :: S))
    (hbL : isPre (beginMarker name.data) bL = true)
    (heL : isPre (endMarker name.data) eL = true)
    (honlyb : ∀ l ∈ P ++ (M ++ S), isPre (beginMarker name.data) l = false)
    (honlye : ∀ l ∈ P ++ (M ++ S), isPre (endMarker name.data) l = false) :
    content.data = joinC P ++ (bL ++ (joinC M ++ (eL ++ joinC S))) ∧
    (writeSection name text atEnd content).data
      = joinC P ++ (bL ++ (text.data ++ (eL ++ joinC S))) := by
  constructor
  · have h0 := joinC_splitLinesC content.data
    rw [hsplit] at h0
    rw [← h0]
    rw [show P ++ bL :: (M ++ eL :: S) = P ++ ([bL] ++ (M ++ ([eL] ++ S)))
      by simp]
    rw [joinC_append, joinC_append, joinC_append, joinC_append]
    simp [joinC_cons, joinC_nil]
  · show writeSectionC name.data text.data atEnd content.data = _
    apply writeSectionC_replace name.data text.data P M S bL eL atEnd
      content.data hsplit hbL heL
    · intro l hl
      rcases List.mem_append.1 hl with hM | hES
      · exact honlyb l (by simp [hM])
      · rcases List.mem_cons.1 hES with rfl | hS
        · exact not_isPre_begin_of_end name.data l heL
        · exact honlyb l (by simp [hS])
    · intro l hl
      exact honlye l (by simp [hl])

/-- Witness for C4 at a concrete three-line file. -/
theorem C4_frame_effect_witness :
    (writeSection ("s") ("new\n") true
        ("#-- begin-s --#\nold\n#-- end-s --#\n")).data
      = joinC [] ++ (("#-- begin-s --#\n").data
          ++ (("new\n").data ++ (("#-- end-s --#\n").data ++ joinC []))) :=
  (C4_frame_effect ("s") ("new\n") ("#-- begin-s --#\nold\n#-- end-s --#\n")
    true [] [("old\n").data] [] (("#-- begin-s --#\n").data)
    (("#-- end-s --#\n").data) (by decide) (by decide) (by decide)
    (by decide) (by decide)).2

theorem sliceAssign_insert {α : Type} (l : List α) (k : Nat) (r : List α) :
    sliceAssign l (k : Int) (k : Int) r
      = l.take (min k l.length) ++ r ++ l.drop (min k l.length) := by
  have hk : pyIdx l.length (k : Int) = min k l.length := by
    simp [pyIdx]
  simp [sliceAssign, hk]

/-- Counterexample to C6 as stated: on the file `"# h\nx\ny\n"` the block
is inserted after the first non-comment line `"x\n"`, not immediately
after the leading comment run (i.e. not before that line, as the claim
requires). -/
theorem C6_counterexample :
    writeSection ("s") ("B\n") false ("# h\nx\ny\n")
        = "# h\nx\n#-- begin-s --#\nB\n#-- end-s --#\ny\n" ∧
    writeSection ("s") ("B\n") false ("# h\nx\ny\n")
        ≠ "# h\n#-- begin-s --#\nB\n#-- end-s --#\nx\ny\n" := by
  constructor
  · decide
  · decide

/-- With no begin-marker line present and `at_end = False`, the new block
is spliced in after the first `min (headerIdxC lines + 1) lines.length`
lines. -/
theorem writeSection_insert_shape (name text content : List Char)
    (hb : lastIdxWith (fun l => isPre (beginMarker name) l)
      (splitLinesC content) = -1) :
    writeSectionC name text false content
      = joinC ((splitLinesC content).take
            (min (headerIdxC (splitLinesC content) + 1)
              (splitLinesC content).length)
          ++ [beginMarker name ++ ['\n'], text, endMarker name ++ ['\n']]
          ++ (splitLinesC content).drop
            (min (headerIdxC (splitLinesC content) + 1)
              (splitLinesC content).length)) := by
  simp only [writeSectionC, hb, if_pos rfl, Bool.false_eq_true, if_false]
  have hcast : ((headerIdxC (splitLinesC content) : Int) + 1)
      = ((headerIdxC (splitLinesC content) + 1 : Nat) : Int) := by push_cast; omega
  rw [hcast, sliceAssign_insert]
  simp only [if_true]

/-- With no begin-marker line present and `at_end = True`, the new block
is appended after all existing lines. -/
theorem writeSection_append_shape (name text content : List Char)
    (hb : lastIdxWith (fun l => isPre (beginMarker name) l)
      (splitLinesC content) = -1) :
    writeSectionC name text true content
      = joinC (splitLinesC content
          ++ [beginMarker name ++ ['\n'], text, endMarker name ++ ['\n']]) := by
  simp only [writeSectionC, hb, if_pos rfl, if_true]

/-- C6 (amended): with no line starting with the begin marker and
placement "insert after header", `writeSection` inserts the marked block
one line past the comment run, i.e. immediately after the first line that
does not start with `'#'` (at the end of the file when the file is empty
or every line starts with `'#'`): the block lands between the first
`min (headerIdxC lines + 1) lines.length` lines and the rest. -/
theorem C6_insert_after_header (name text content : List Char)
    (hnb : ∀ l ∈ splitLinesC content,
      isPre (beginMarker name) l = false) :
    writeSectionC name text false content
      = joinC ((splitLinesC content).take
            (min (headerIdxC (splitLinesC content) + 1)
              (splitLinesC content).length))
        ++ (beginMarker name ++ ('\n' :: (text ++ (endMarker name
          ++ ('\n' :: joinC ((splitLinesC content).drop
            (min (headerIdxC (splitLinesC content) + 1)
              (splitLinesC content).length))))))) := by
  rw [writeSection_insert_shape name text content
    (lastIdxWith_of_none _ _ hnb)]
  rw [joinC_append, joinC_append]
  simp [joinC_cons, joinC_nil, List.append_assoc]

/-- Witness for the amended C6 on the concrete file used in the
counterexample. -/
theorem C6_insert_after_header_witness :
    writeSectionC ("s").data ("B\n").data false ("# h\nx\ny\n").data
      = joinC ((splitLinesC ("# h\nx\ny\n").data).take
            (min (headerIdxC (splitLinesC ("# h\nx\ny\n").data) + 1)
              (splitLinesC ("# h\nx\ny\n").data).length))
        ++ (beginMarker ("s").data ++ ('\n' :: (("B\n").data
          ++ (endMarker ("s").data
          ++ ('\n' :: joinC ((splitLinesC ("# h\nx\ny\n").data).drop
            (min (headerIdxC (splitLinesC ("# h\nx\ny\n").data) + 1)
              (splitLinesC ("# h\nx\ny\n").data).length))))))) :=
  C6_insert_after_header ("s").data ("B\n").data ("# h\nx\ny\n").data
    (by decide)

/-- When the last `p`-line comes strictly before the last `q`-line, the
line list decomposes jointly around the two. -/
theorem lastIdx_lt_decomp (p q : List Char → Bool) (ls : List (List Char))
    (hb : 0 ≤ lastIdxWith p ls)
    (hlt : lastIdxWith p ls < lastIdxWith q ls) :
    ∃ P bL M eL S, ls = P ++ bL :: (M ++ eL :: S) ∧
      p bL = true ∧ q eL = true ∧
      (∀ l ∈ M ++ eL :: S, p l = false) ∧ (∀ l ∈ S, q l = false) := by
  obtain ⟨P, bL, Q, hls1, hP, hpbL, hQ⟩ := lastIdxWith_decomp p ls hb
  obtain ⟨X, eL, S, hls2, hX, hqeL, hS⟩ := lastIdxWith_decomp q ls (by omega)
  have hPX : P.length + 1 ≤ X.length := by omega
  have hQdrop : ls.drop (P.length + 1) = Q := by
    rw [hls1, show P ++ bL :: Q = (P ++ [bL]) ++ Q by simp,
      show P.length + 1 = (P ++ [bL]).length by simp]
    exact List.drop_left _ _
  have hSdrop : ls.drop X.length = eL :: S := by
    rw [hls2]
    exact drop_append_cons X eL S
  have hdd : ls.drop X.length = Q.drop (X.length - (P.length + 1)) := by
    rw [← hQdrop, List.drop_drop]
    congr 1
    omega
  have hQsplit : Q = Q.take (X.length - (P.length + 1)) ++ eL :: S := by
    conv_lhs => rw [← List.take_append_drop (X.length - (P.length + 1)) Q]
    rw [← hdd, hSdrop]
  refine ⟨P, bL, Q.take (X.length - (P.length + 1)), eL, S, ?_, hpbL, hqeL,
    ?_, hS⟩
  · rw [hls1, ← hQsplit]
  · rw [← hQsplit]
    exact hQ

/-- A file whose lines already have the canonical merged shape
`A ++ [begin-line] ++ body-lines ++ [end-line] ++ B` is a fixed point of
`writeSection` with that body. -/
theorem writeSection_fixed (name text : List Char) (atEnd : Bool)
    (A B : List (List Char)) (bL eL : List Char)
    (hbL : isPre (beginMarker name) bL = true)
    (heL : isPre (endMarker name) eL = true)
    (htermA : ∀ l ∈ A, termLine l = true)
    (htermB : ∀ l ∈ B, termLine l = true)
    (htermbL : termLine bL = true) (htermeL : termLine eL = true)
    (htext : ∀ l ∈ splitLinesC text, termLine l = true)
    (htm : ∀ l ∈ splitLinesC text,
      isPre (beginMarker name) l = false ∧ isPre (endMarker name) l = false)
    (hnbB : ∀ l ∈ B, isPre (beginMarker name) l = false)
    (hneB : ∀ l ∈ B, isPre (endMarker name) l = false) :
    writeSectionC name text atEnd
        (joinC (A ++ bL :: (splitLinesC text ++ eL :: B)))
      = joinC (A ++ bL :: (splitLinesC text ++ eL :: B)) := by
  have hterm : ∀ l ∈ A ++ bL :: (splitLinesC text ++ eL :: B),
      termLine l = true := by
    intro l hl
    rcases List.mem_append.1 hl with hA | hrest
    · exact htermA l hA
    · rcases List.mem_cons.1 hrest with rfl | hrest2
      · exact htermbL
      · rcases List.mem_append.1 hrest2 with hT | hES
        · exact htext l hT
        · rcases List.mem_cons.1 hES with rfl | hB
          · exact htermeL
          · exact htermB l hB
  have hsplit : splitLinesC (joinC (A ++ bL :: (splitLinesC text ++ eL :: B)))
      = A ++ bL :: (splitLinesC text ++ eL :: B) :=
    splitLinesC_joinC _ hterm
  rw [writeSectionC_replace name text A (splitLinesC text) B bL eL atEnd _
    hsplit hbL heL ?_ hneB]
  · rw [show A ++ bL :: (splitLinesC text ++ eL :: B)
      = A ++ ([bL] ++ (splitLinesC text ++ ([eL] ++ B))) by simp]
    rw [joinC_append, joinC_append, joinC_append, joinC_append]
    simp [joinC_cons, joinC_nil, joinC_splitLinesC]
  · intro l hl
    rcases List.mem_append.1 hl with hT | hES
    · exact (htm l hT).1
    · rcases List.mem_cons.1 hES with rfl | hB
      · exact not_isPre_begin_of_end name l heL
      · exact hnbB l hB

theorem joinC_canonical (A B : List (List Char)) (x y t : List Char) :
    joinC (A ++ x :: (splitLinesC t ++ y :: B))
      = joinC A ++ (x ++ (t ++ (y ++ joinC B))) := by
  rw [show A ++ x :: (splitLinesC t ++ y :: B)
    = A ++ ([x] ++ (splitLinesC t ++ ([y] ++ B))) by simp]
  rw [joinC_append, joinC_append, joinC_append, joinC_append]
  simp [joinC_cons, joinC_nil, joinC_splitLinesC]

/-- Counterexample to C3 as stated: with a body that does not end in a
newline, the appended end marker is glued onto the body's last line, so
the second run fails to find the end marker and duplicates the body. -/
theorem C3_counterexample :
    writeSection ("s") ("X") true (writeSection ("s") ("X") true (""))
      ≠ writeSection ("s") ("X") true ("") := by
  decide

/-- C3 (amended): `writeSection` is idempotent provided (i) the section
name contains no newline, (ii) the body is a sequence of properly
terminated lines none of which starts with either marker, (iii) the
destination content consists of properly terminated lines, and (iv) either
no content line starts with the begin marker and none with the end marker,
or the last begin-marker line comes strictly before the last end-marker
line.  (The counterexample shows the claim fails without such provisos,
e.g. for a body with no trailing newline.) -/
theorem C3_idempotent (name text content : List Char) (atEnd : Bool)
    (hname : ('\n') ∉ name)
    (htext : ∀ l ∈ splitLinesC text, termLine l = true)
    (htm : ∀ l ∈ splitLinesC text,
      isPre (beginMarker name) l = false ∧ isPre (endMarker name) l = false)
    (hcont : ∀ l ∈ splitLinesC content, termLine l = true)
    (hbe : (lastIdxWith (fun l => isPre (beginMarker name) l)
              (splitLinesC content) = -1 ∧
            lastIdxWith (fun l => isPre (endMarker name) l)
              (splitLinesC content) = -1) ∨
           (0 ≤ lastIdxWith (fun l => isPre (beginMarker name) l)
              (splitLinesC content) ∧
            lastIdxWith (fun l => isPre (beginMarker name) l)
              (splitLinesC content) <
            lastIdxWith (fun l => isPre (endMarker name) l)
              (splitLinesC content))) :
    writeSectionC name text atEnd (writeSectionC name text atEnd content)
      = writeSectionC name text atEnd content := by
  have hbmterm : termLine (beginMarker name ++ ['\n']) = true :=
    termLine_append_newline _ (newline_not_mem_beginMarker name hname)
  have hemterm : termLine (endMarker name ++ ['\n']) = true :=
    termLine_append_newline _ (newline_not_mem_endMarker name hname)
  have hbmpre : isPre (beginMarker name) (beginMarker name ++ ['\n']) = true :=
    isPre_append _ _
  have hempre : isPre (endMarker name) (endMarker name ++ ['\n']) = true :=
    isPre_append _ _
  rcases hbe with ⟨hb, he⟩ | ⟨hb0, hlt⟩
  · have hnb : ∀ l ∈ splitLinesC content,
        isPre (beginMarker name) l = false :=
      (lastIdxWith_none_iff _ _).1 hb
    have hne : ∀ l ∈ splitLinesC content,
        isPre (endMarker name) l = false :=
      (lastIdxWith_none_iff _ _).1 he
    cases atEnd with
    | true =>
      have hR1 : writeSectionC name text true content
          = joinC (splitLinesC content
              ++ (beginMarker name ++ ['\n'])
                :: (splitLinesC text ++ (endMarker name ++ ['\n']) :: [])) := by
        rw [writeSection_append_shape name text content hb]
        rw [joinC_append, joinC_canonical]
        simp [joinC_cons, joinC_nil]
      rw [hR1]
      exact writeSection_fixed name text true (splitLinesC content) []
        _ _ hbmpre hempre hcont (by simp) hbmterm hemterm htext htm
        (by simp) (by simp)
    | false =>
      have hR1 : writeSectionC name text false content
          = joinC ((splitLinesC content).take
                (min (headerIdxC (splitLinesC content) + 1)
                  (splitLinesC content).length)
              ++ (beginMarker name ++ ['\n'])
                :: (splitLinesC text ++ (endMarker name ++ ['\n'])
                  :: (splitLinesC content).drop
                    (min (headerIdxC (splitLinesC content) + 1)
                      (splitLinesC content).length))) := by
        rw [writeSection_insert_shape name text content hb]
        rw [joinC_append, joinC_append, joinC_canonical]
        simp [joinC_cons, joinC_nil, List.append_assoc]
      rw [hR1]
      exact writeSection_fixed name text false _ _ _ _ hbmpre hempre
        (fun l hl => hcont l (List.take_subset _ _ hl))
        (fun l hl => hcont l (List.drop_subset _ _ hl))
        hbmterm hemterm htext htm
        (fun l hl => hnb l (List.drop_subset _ _ hl))
        (fun l hl => hne l (List.drop_subset _ _ hl))
  · obtain ⟨P, bL, M, eL, S, hls, hpbL, hqeL, hnbMES, hneS⟩ :=
      lastIdx_lt_decomp _ _ (splitLinesC content) hb0 hlt
    have hR1 : writeSectionC name text atEnd content
        = joinC (P ++ bL :: (splitLinesC text ++ eL :: S)) := by
      rw [writeSectionC_replace name text P M S bL eL atEnd content hls
        hpbL hqeL hnbMES hneS]
      rw [joinC_canonical]
    rw [hR1]
    have hmemP : ∀ l ∈ P, termLine l = true := by
      intro l hl
      exact hcont l (by rw [hls]; simp [hl])
    have hmemS : ∀ l ∈ S, termLine l = true := by
      intro l hl
      exact hcont l (by rw [hls]; simp [hl])
    have htbL : termLine bL = true :=
      hcont bL (by rw [hls]; simp)
    have hteL : termLine eL = true :=
      hcont eL (by rw [hls]; simp)
    exact writeSection_fixed name text atEnd P S bL eL hpbL hqeL
      hmemP hmemS htbL hteL htext htm
      (fun l hl => hnbMES l (by simp [hl]))
      hneS

/-- Witness for the amended C3: merging `"B\n"` into an empty file twice
(append placement) is idempotent. -/
theorem C3_idempotent_witness :
    writeSectionC ("s").data ("B\n").data true
        (writeSectionC ("s").data ("B\n").data true ("").data)
      = writeSectionC ("s").data ("B\n").data true ("").data :=
  C3_idempotent ("s").data ("B\n").data ("").data true (by decide)
    (by decide) (by decide) (by decide) (Or.inl (by decide))

/-! ## The dispatch tree walker / text emitter -/

/-- Python `str.replace(pat, rep)` on character lists, with leftmost,
non-overlapping matches; every call site uses a nonempty pattern (the
guard on the empty pattern only keeps the function total).  The `Nat`
argument is fuel, always instantiated with the string length. -/
def replaceFuel (pat rep : List Char) : Nat → List Char → List Char
  | 0, s => s
  | _ + 1, [] => []
  | n + 1, c :: cs =>
      if isPre pat (c :: cs) && !pat.isEmpty then
        rep ++ replaceFuel pat rep n (List.drop (pat.length - 1) cs)
      else c :: replaceFuel pat rep n cs

def replaceC (pat rep s : List Char) : List Char := replaceFuel pat rep s.length s

/-- Python `str.find(c)`: index of the first occurrence, `-1` if absent. -/
def strFindChar (s : List Char) (c : Char) : Int :=
  match s.findIdx? (fun x => x == c) with
  | some i => (i : Int)
  | none => -1

/-- Python `s[i:]` on a character list. -/
def pySliceFrom (s : List Char) (i : Int) : List Char := s.drop (pyIdx s.length i)

/-- The args-string fixups shared by `generateFunction` and
`generateMethod`: an empty string becomes `"()"`, and when the string does
not begin with `'('` everything before the first `'('` is cut off
(Python `find` returns `-1` when there is no `'('`, in which case the
slice keeps only the last character). -/
def fixupArgs (args : String) : String :=
  let a := if args = "" then ("()") else args
  if a.data.head? = some '(' then a
  else ⟨pySliceFrom a.data (strFindChar a.data '(')⟩

/-- `'::'` rewritten to attribute access, applied after the other
fixups. -/
def dotArgs (a : String) : String := ⟨replaceC ("::").data (".").data a.data⟩

/-- Concatenation of a list of emitted fragments. -/
def sjoin : List String → String
  | [] => ""
  | s :: ss => s ++ sjoin ss

theorem sjoin_nil : sjoin [] = "" := rfl

theorem sjoin_cons (s : String) (ss : List String) :
    sjoin (s :: ss) = s ++ sjoin ss := rfl

/-- A left fold that appends one fragment per element equals the initial
stream followed by the joined fragments. -/
theorem foldl_emit {α : Type} (h : α → String) (g : String → α → String)
    (hg : ∀ s a, g s a = s ++ h a) (l : List α) (s : String) :
    l.foldl g s = s ++ sjoin (l.map h) := by
  induction l generalizing s with
  | nil => simp [sjoin_nil, String.append_empty]
  | cons a l ih =>
    simp only [List.foldl_cons, List.map_cons, sjoin_cons]
    rw [hg, ih, String.append_assoc]

/-- Python `sub in s` substring test. -/
def containsSub (sub : List Char) : List Char → Bool
  | [] => sub.isEmpty
  | c :: cs => isPre sub (c :: cs) || containsSub sub cs

/-- The whitespace class of Python `str.strip()`. -/
def pySpace (c : Char) : Bool :=
  c == ' ' || c == '\t' || c == '\n' || c == '\r' || c == '\x0b' || c == '\x0c'

/-- Python `str.strip()`. -/
def pyStrip (s : String) : String :=
  ⟨((s.data.dropWhile pySpace).reverse.dropWhile pySpace).reverse⟩

/-- Python `sep.join(parts)`. -/
def intercalateS (sep : String) : List String → String
  | [] => ""
  | [s] => s
  | s :: ss => s ++ sep ++ intercalateS sep ss

/-- `etgtools.extractors.FunctionDef`, restricted to the fields
`generateFunction` reads.  The `overloads` list holds the alternate
signatures, in declaration order. -/
structure FunctionDef where
  pyName : String
  pyArgsString : String
  pyDocstring : String
  overloads : List FunctionDef

/-- Modelled from the spec: `FunctionDef.hasOverloads` lives in the
external `extractors` module (not under the source file verified here);
per the spec a callable carries "an ordered overload chain (self plus zero
or more alternates)", so it has overloads exactly when the alternate list
is nonempty. -/
def FunctionDef.hasOverloads (f : FunctionDef) : Bool := !f.overloads.isEmpty

/-- `PiWrapperGenerator.generateFunction` with `is_overload=True`.  The
source is one function with an `is_overload` flag; a call with
`is_overload=True` never recurses (the recursion is guarded by
`not is_overload`), so the two modes are split into two definitions
here, each mirroring the corresponding instantiation of the flag. -/
def genFunctionOv (f : FunctionDef) (stream : String) : String :=
  if f.pyName = "" then stream
  else
    let stream := stream ++ "\n@overload"
    let stream := stream ++ "\ndef " ++ f.pyName
    let stream := stream ++ dotArgs (fixupArgs f.pyArgsString) ++ ":\n"
    stream ++ "    ...\n"

/-- `PiWrapperGenerator.generateFunction` with `is_overload=False` (the
entry point used by the module walker): emit every overload first (each
via the `is_overload=True` mode), then the primary signature, which also
receives an `@overload` marker when overloads exist, and carries the
re-indented docstring as its body. -/
def genFunction (nci : String → Nat → String) (f : FunctionDef)
    (stream : String) : String :=
  if f.pyName = "" then stream
  else
    let stream :=
      if f.hasOverloads then
        (f.overloads.foldl (fun s g => genFunctionOv g s) stream)
          ++ "\n@overload"
      else stream
    let stream := stream ++ "\ndef " ++ f.pyName
    let stream := stream ++ dotArgs (fixupArgs f.pyArgsString) ++ ":\n"
    stream ++ "    \"\"\"\n" ++ nci f.pyDocstring 4 ++ "    \"\"\"\n"

/-- One enum member (`extractors.EnumValueDef`). -/
structure EnumValueDef where
  name : String
  pyName : String
  ignored : Bool
  piIgnored : Bool
deriving DecidableEq

/-- `extractors.EnumDef`, restricted to the fields `generateEnum`
reads. -/
structure EnumDef where
  name : String
  ignored : Bool
  piIgnored : Bool
  protection : String
  items : List EnumValueDef
deriving DecidableEq

/-- `PiWrapperGenerator.generateEnum`.  `fixWx` is the external
`FixWxPrefix.fixWxPrefix` collaborator (its second argument mirrors the
source's `checkIsCore`-style flag, defaulted to `false` where the source
passes no second argument). -/
def genEnum (fixWx : String → Bool → String) (enum : EnumDef)
    (indent : String) (stream : String) : String :=
  if enum.ignored || enum.piIgnored then stream
  else
    let pair :=
      if enum.name.data.contains '@' || enum.name = "" then
        ((("_enum_") ++
          (pyStrip (⟨replaceC ("@").data [] enum.name.data⟩ : String)) : String),
         ("" : String))
      else
        let al := fixWx enum.name false
        ((("_") ++ al : String), al)
    let enum_name := pair.1
    let al := pair.2
    let enum_type :=
      if containsSub (("Flags").data) enum_name.data then ("IntFlag")
      else ("IntEnum")
    let stream := stream ++ "\n" ++ indent ++ "class " ++ enum_name
      ++ "(" ++ enum_type ++ "):\n"
    let stream := enum.items.foldl (fun s v =>
      if v.ignored || v.piIgnored then s
      else s ++ indent ++ "    " ++ pyOr v.pyName v.name ++ " = auto()\n")
      stream
    let stream :=
      if al ≠ "" then
        stream ++ indent ++ al ++ ": TypeAlias = Union[" ++ enum_name
          ++ ", int]\n"
      else stream
    enum.items.foldl (fun s v =>
      if v.ignored || v.piIgnored then s
      else s ++ indent ++ pyOr v.pyName v.name ++ " = " ++ enum_name
        ++ "." ++ pyOr v.pyName v.name ++ "\n") stream

/-- `extractors.PropertyDef` / `PyPropertyDef`: name plus getter/setter
accessor names (empty string for an absent accessor, matching Python
falsiness). -/
structure PropertyDef where
  name : String
  getter : String
  setter : String
  ignored : Bool
  piIgnored : Bool
  protection : String

/-- `PiWrapperGenerator._generateProperty` (the shared body of
`generateProperty` and `generatePyProperty`): note there is no `else`
branch, so a property with both accessors absent silently emits
nothing. -/
def genPropertyCore (prop : PropertyDef) (indent : String)
    (stream : String) : String :=
  if prop.ignored || prop.piIgnored then stream
  else if prop.setter ≠ "" ∧ prop.getter ≠ "" then
    stream ++ indent ++ prop.name ++ " = property(" ++ prop.getter ++ ", "
      ++ prop.setter ++ ")\n"
  else if prop.getter ≠ "" then
    stream ++ indent ++ prop.name ++ " = property(" ++ prop.getter ++ ")\n"
  else if prop.setter ≠ "" then
    stream ++ indent ++ prop.name ++ " = property(fset=" ++ prop.setter
      ++ ")\n"
  else stream

/-- `extractors.MemberVarDef`. -/
structure MemberVarDef where
  name : String
  type : String
  ignored : Bool
  piIgnored : Bool
  protection : String

/-- `PiWrapperGenerator.generateMemberVar`; `cleanType` is the external
`FixWxPrefix.cleanType` collaborator. -/
def genMemberVar (cleanType : String → String) (v : MemberVarDef)
    (indent : String) (stream : String) : String :=
  if v.ignored || v.piIgnored then stream
  else
    let memberType := v.type
    let memberType := if memberType ≠ "" then cleanType memberType
      else memberType
    let memberType := if memberType = "" then ("Any") else memberType
    stream ++ indent ++ v.name ++ ": " ++ memberType ++ "\n"

/-- `extractors.PyCodeDef`: a raw code block; `order` is the optional
hoisting key consulted by `generateModule`. -/
structure PyCodeDef where
  code : String
  order : Option Int
  ignored : Bool
  piIgnored : Bool
  protection : String
deriving DecidableEq

/-- `PiWrapperGenerator.generatePyCode`.  `klassPyName` is `some` exactly
when the source object has a `klass` attribute attached (as
`generateClass`/`generatePyClass` do before dispatching), in which case
occurrences of `klass.pyName + '.'` are stripped from the code.  Note the
source checks neither `ignored` nor `piIgnored` here. -/
def genPyCode (nci : String → Nat → String) (klassPyName : Option String)
    (pc : PyCodeDef) (indent : String) (stream : String) : String :=
  let code :=
    match klassPyName with
    | some kn => (⟨replaceC (kn ++ (".")).data [] pc.code.data⟩ : String)
    | none => pc.code
  stream ++ "\n" ++ nci code indent.length

/-- `extractors.PyMethodDef`, restricted to the fields
`generatePyMethod` reads (`piArgsString` is `some` when the attribute is
present, mirroring the `getattr` default). -/
structure PyMethodDef where
  name : String
  argsString : String
  piArgsString : Option String
  pyDocstring : String
  isStatic : Bool
  ignored : Bool
  piIgnored : Bool
  protection : String

/-- `PiWrapperGenerator.generatePyMethod`. -/
def genPyMethod (nci : String → Nat → String) (pm : PyMethodDef)
    (indent : String) (stream : String) : String :=
  if pm.ignored || pm.piIgnored then stream
  else
    let stream := if pm.isStatic
      then stream ++ "\n" ++ indent ++ "@staticmethod" else stream
    let stream := stream ++ "\n" ++ indent ++ "def " ++ pm.name
    let stream := stream ++ (pm.piArgsString.getD pm.argsString) ++ ":\n"
    let indent2 := indent ++ "    "
    stream ++ indent2 ++ "\"\"\"\n" ++ nci pm.pyDocstring indent2.length
      ++ indent2 ++ "\"\"\"\n"

/-- `extractors.MethodDef`, restricted to the fields `generateMethod` and
`generateClass` read.  `pyDocstring` is `some` exactly when the Python
object has the attribute (mirroring the source's `hasattr` check). -/
structure MethodDef where
  name : String
  pyName : String
  pyArgsString : String
  pyDocstring : Option String
  ignored : Bool
  piIgnored : Bool
  isStatic : Bool
  isCtor : Bool
  isDtor : Bool
  protection : String
  overloads : List MethodDef

/-- Modelled from the spec: `MethodDef.all` lives in the external
`extractors` module; per the spec the overload chain is "self plus zero or
more alternates", so `all` returns the method followed by its
overloads. -/
def MethodDef.all (m : MethodDef) : List MethodDef := m :: m.overloads

/-- Modelled from the spec, exactly as `FunctionDef.hasOverloads`. -/
def MethodDef.hasOverloads (m : MethodDef) : Bool := !m.overloads.isEmpty

/-- The guard of the selection loop at the top of `generateMethod`:
`if not m.ignored or piIgnored(m)`.  (Note the precedence: this is
`(not m.ignored) or piIgnored(m)`, although the adjacent comment in the
source says "use the first not ignored"; see C2.) -/
def methodSelGuard (x : MethodDef) : Bool := !x.ignored || x.piIgnored

/-- The args-string transformation of `generateMethod`: default empty to
`"()"`, cut before the first `'('`, inject `self` for non-static methods,
then rewrite `'::'` to `'.'`. -/
def methodArgs (isStatic : Bool) (pyArgsString : String) : String :=
  let argsString := fixupArgs pyArgsString
  let argsString :=
    if !isStatic then
      if argsString = ("()") then ("(self)")
      else ("(self, ") ++ (⟨argsString.data.drop 1⟩ : String)
    else argsString
  dotArgs argsString

/-- The `name` resolution of `generateMethod`:
`name = name or method.pyName or method.name`, then the magic-method
rename.  `mm` is the external `tweaker_tools.magicMethods` table as a
partial map. -/
def methodName (mm : String → Option String) (nameArg : Option String)
    (method : MethodDef) : String :=
  let n := pyOr (nameArg.getD ("")) (pyOr method.pyName method.name)
  (mm n).getD n

/-- `PiWrapperGenerator.generateMethod` with `is_overload=True`.  As with
`generateFunction`, a call with `is_overload=True` never recurses, so the
two modes of the source function are split into two definitions. -/
def genMethodOv (mm : String → Option String) (m : MethodDef)
    (indent : String) (nameArg : Option String) (stream : String) : String :=
  match m.all.find? methodSelGuard with
  | none => stream
  | some method =>
    if method.isDtor then stream
    else
      let name := methodName mm nameArg method
      let stream := stream ++ "\n" ++ indent ++ "@overload"
      let stream := if method.isStatic
        then stream ++ "\n" ++ indent ++ "@staticmethod" else stream
      let stream := stream ++ "\n" ++ indent ++ "def " ++ name
      let stream := stream
        ++ methodArgs method.isStatic method.pyArgsString ++ ":\n"
      stream ++ (indent ++ "    ") ++ "...\n"

/-- `PiWrapperGenerator.generateMethod` with `is_overload=False` (the mode
used by `generateClass` and the Cpp-method wrappers): select the first
signature satisfying the guard, drop destructors, emit each overload via
the `is_overload=True` mode with the resolved name, then the selected
signature (marked `@overload` exactly when it has overloads) with its
docstring body. -/
def genMethod (nci : String → Nat → String) (mm : String → Option String)
    (m : MethodDef) (indent : String) (nameArg docArg : Option String)
    (stream : String) : String :=
  match m.all.find? methodSelGuard with
  | none => stream
  | some method =>
    if method.isDtor then stream
    else
      let name := methodName mm nameArg method
      let stream :=
        if method.hasOverloads then
          (method.overloads.foldl
            (fun s mo => genMethodOv mm mo indent (some name) s) stream)
            ++ "\n" ++ indent ++ "@overload"
        else stream
      let stream := if method.isStatic
        then stream ++ "\n" ++ indent ++ "@staticmethod" else stream
      let stream := stream ++ "\n" ++ indent ++ "def " ++ name
      let stream := stream
        ++ methodArgs method.isStatic method.pyArgsString ++ ":\n"
      let indent2 := indent ++ "    "
      let docstring :=
        match docArg with
        | some d => if d = "" then method.pyDocstring.getD ("") else d
        | none => method.pyDocstring.getD ("")
      let stream := stream ++ indent2 ++ "\"\"\"\n"
      let stream := if pyStrip docstring ≠ "" then
          stream ++ nci docstring indent2.length
        else stream
      stream ++ indent2 ++ "\"\"\"\n"

/-- `extractors.WigCode` (emitted as nothing). -/
structure WigCodeDef where
  code : String
  protection : String

/-- `extractors.TypedefDef`, restricted to what `generateClass` needs:
the class-member dispatch maps it to a no-op lambda. -/
structure TypedefDefT where
  name : String
  type : String
  ignored : Bool
  piIgnored : Bool
  protection : String

/-- The kinds of members that occur in a `ClassDef`'s item list and are
covered by `generateClass`'s dispatch table.  (`CppMethodDef` and
`CppMethodDef_sip` delegate to `generateMethod` with the same arguments,
so they behave as the `method` case.) -/
inductive ClassItem where
  | method (m : MethodDef)
  | enum (e : EnumDef)
  | memberVar (v : MemberVarDef)
  | prop (p : PropertyDef)
  | pyProp (p : PropertyDef)
  | pyCode (c : PyCodeDef)
  | wig (w : WigCodeDef)
  | pyMethod (pm : PyMethodDef)
  | typedef (t : TypedefDefT)

def ClassItem.protection : ClassItem → String
  | .method m => m.protection
  | .enum e => e.protection
  | .memberVar v => v.protection
  | .prop p => p.protection
  | .pyProp p => p.protection
  | .pyCode c => c.protection
  | .wig w => w.protection
  | .pyMethod pm => pm.protection
  | .typedef t => t.protection

/-- `isinstance(i, extractors.EnumDef)`. -/
def ClassItem.isEnumItem : ClassItem → Bool
  | .enum _ => true
  | _ => false

/-- `isinstance(i, extractors.MethodDef)`. -/
def ClassItem.isMethodItem : ClassItem → Bool
  | .method _ => true
  | _ => false

/-- The predicate defining `generateClass`'s `ctors` list:
`isinstance(i, MethodDef) and i.protection == 'public' and
(i.isCtor or i.isDtor)`. -/
def ClassItem.isCtorItem : ClassItem → Bool
  | .method m => m.protection == ("public") && (m.isCtor || m.isDtor)
  | _ => false

/-- The predicate defining `generateClass`'s `enums` list. -/
def ClassItem.isEnumsItem (i : ClassItem) : Bool :=
  i.isEnumItem && i.protection == ("public")

/-- `extractors.ClassDef`, restricted to the fields `generateClass`
reads.  `piBases` is `some` exactly when the Python object carries the
attribute. -/
structure ClassDef where
  name : String
  pyName : String
  pyDocstring : String
  ignored : Bool
  piIgnored : Bool
  piBases : Option (List String)
  bases : List String
  templateParams : List String
  innerclasses : List ClassDef
  items : List ClassItem

/-- The dispatch table of `generateClass`, applied to the `public` and
`protected` item groups.  `TypedefDef` maps to the no-op lambda of the
source; `WigCode` emits nothing; `PyCodeDef` receives the enclosing
class's `pyName` (the `item.klass = klass` bookkeeping assignment). -/
def classDispatch (nci : String → Nat → String)
    (mm : String → Option String) (fixWx : String → Bool → String)
    (cleanType : String → String) (k : ClassDef) (indent2 : String)
    (s : String) (i : ClassItem) : String :=
  match i with
  | .memberVar v => genMemberVar cleanType v indent2 s
  | .typedef _ => s
  | .prop p => genPropertyCore p indent2 s
  | .pyProp p => genPropertyCore p indent2 s
  | .method mItem => genMethod nci mm mItem indent2 none none s
  | .enum e => genEnum fixWx e indent2 s
  | .pyMethod pm => genPyMethod nci pm indent2 s
  | .pyCode pc => genPyCode nci (some k.pyName) pc indent2 s
  | .wig _ => s

mutual
/-- `PiWrapperGenerator.generateClass` (mutually recursive with the
emission of nested classes).  The membership tests `i not in ctors` and
`i not in enums` of the source are modelled by the defining predicates of
those filtered lists; this coincides with Python's equality-based
membership for the distinct node objects the extractor produces. -/
def genClass (nci : String → Nat → String) (mm : String → Option String)
    (fixWx : String → Bool → String) (cleanType : String → String)
    (k : ClassDef) (indent : String) (stream : String) : String :=
  if k.ignored || k.piIgnored then stream
  else
    let bases :=
      match k.piBases with
      | some pb => pb
      | none =>
          k.templateParams.foldl
            (fun bs tp => if bs.contains tp then bs.erase tp else bs)
            k.bases
    let klassName := pyOr k.pyName k.name
    let stream := stream ++ "\n" ++ indent ++ "class " ++ klassName
    let stream :=
      if bases ≠ [] then
        stream ++ "(" ++ intercalateS (", ")
          (bases.map (fun b => fixWx b true)) ++ ")"
      else stream
    let stream := stream ++ ":\n"
    let indent2 := indent ++ "    "
    let stream := stream ++ indent2 ++ "\"\"\"\n"
      ++ nci k.pyDocstring indent2.length ++ indent2 ++ "\"\"\"\n"
    let stream := genClassList nci mm fixWx cleanType k.innerclasses
      indent2 stream
    let enums := k.items.filter ClassItem.isEnumsItem
    let ctors := k.items.filter ClassItem.isCtorItem
    let pub := k.items.filter (fun i =>
      i.protection == ("public") && !i.isCtorItem && !i.isEnumsItem)
    let protectedItems := k.items.filter
      (fun i => i.protection == ("protected"))
    let stream := enums.foldl (fun s i =>
      match i with
      | .enum e => genEnum fixWx e indent2 s
      | _ => s) stream
    let stream := ctors.foldl (fun s i =>
      match i with
      | .method c =>
          if c.isCtor then
            genMethod nci mm c indent2 (some ("__init__"))
              (some k.pyDocstring) s
          else s
      | _ => s) stream
    let stream := pub.foldl
      (classDispatch nci mm fixWx cleanType k indent2) stream
    let stream := protectedItems.foldl
      (classDispatch nci mm fixWx cleanType k indent2) stream
    stream ++ indent ++ "# end of class " ++ klassName ++ "\n\n"
termination_by sizeOf k
decreasing_by cases k; simp; omega
def genClassList (nci : String → Nat → String)
    (mm : String → Option String) (fixWx : String → Bool → String)
    (cleanType : String → String) (ks : List ClassDef) (indent : String)
    (stream : String) : String :=
  match ks with
  | [] => stream
  | k :: ks' => genClassList nci mm fixWx cleanType ks' indent
      (genClass nci mm fixWx cleanType k indent stream)
termination_by sizeOf ks
decreasing_by all_goals (simp; try omega)
end

/-- `extractors.DefineDef`. -/
structure DefineDef where
  name : String
  pyName : String
  value : String
  ignored : Bool
  piIgnored : Bool
deriving DecidableEq

/-- A top-level module item, restricted to representative kinds from
`generateModule`'s dispatch table (the hoisting step only distinguishes
`PyCodeDef`-with-`order` items from everything else). -/
inductive ModuleItem where
  | pyCode (pc : PyCodeDef)
  | enumItem (e : EnumDef)
  | defineItem (d : DefineDef)
deriving DecidableEq

/-- `isinstance(item, extractors.PyCodeDef) and item.order is not None`:
the predicate selecting the items hoisted by `generateModule`. -/
def ModuleItem.isOrderedPyCode : ModuleItem → Bool
  | .pyCode pc => pc.order.isSome
  | _ => false

/-- The reordering step at the top of `generateModule`: collect (in
original order) the `PyCodeDef` items carrying an `order` value, remove
each from the item list (`list.remove`, first occurrence), and put the
collected items in front.  There is no sorting. -/
def moduleReorder (items : List ModuleItem) : List ModuleItem :=
  let pycode := items.filter ModuleItem.isOrderedPyCode
  pycode ++ pycode.foldl (fun acc x => acc.erase x) items

/-! ## Claims about the emitters -/

/-- C10: a non-ignored property whose getter and setter accessor names are
both absent emits nothing — `_generateProperty` has no `else` branch — and
raises no error (the emitter is a total function returning the stream
unchanged). -/
theorem C10_property_both_absent (prop : PropertyDef)
    (indent stream : String)
    (hni : prop.ignored = false) (hnpi : prop.piIgnored = false)
    (hg : prop.getter = "") (hs : prop.setter = "") :
    genPropertyCore prop indent stream = stream := by
  simp [genPropertyCore, hni, hnpi, hg, hs]

/-- Witness for C10 at a concrete property. -/
theorem C10_property_both_absent_witness :
    (⟨"p", "", "", false, false, "public"⟩ : PropertyDef).ignored = false ∧
    genPropertyCore ⟨"p", "", "", false, false, "public"⟩ ("    ") ("S")
      = "S" :=
  ⟨rfl, C10_property_both_absent _ _ _ rfl rfl rfl rfl⟩

/-- C2 (code-bug evaluation): a method whose `piIgnored` attribute is set
(`ignored` clear), and likewise one with both `ignored` and `piIgnored`
set, is nevertheless emitted by `generateMethod`: the selection guard
`not m.ignored or piIgnored(m)` evaluates to true for it, although the
adjacent source comment says "use the first not ignored".  The claim
requires zero output for such nodes. -/
theorem C2_piIgnored_method_emitted :
    genMethod (fun s _ => s) (fun _ => none)
        ⟨"M", "M", "()", some ("mdoc\n"), false, true, false, false, false,
          "public", []⟩ "" none none ""
      = "\ndef M(self):\n    \"\"\"\nmdoc\n    \"\"\"\n" ∧
    genMethod (fun s _ => s) (fun _ => none)
        ⟨"M", "M", "()", some ("mdoc\n"), true, true, false, false, false,
          "public", []⟩ "" none none ""
      = "\ndef M(self):\n    \"\"\"\nmdoc\n    \"\"\"\n" := by
  constructor <;> decide

/-- Erasing a list of elements none of which equals `x` commutes with the
head `x`. -/
theorem foldl_erase_cons {α : Type} [DecidableEq α] (x : α) (l ys : List α)
    (h : ∀ y ∈ ys, y ≠ x) :
    ys.foldl (fun acc z => acc.erase z) (x :: l)
      = x :: ys.foldl (fun acc z => acc.erase z) l := by
  induction ys generalizing l with
  | nil => rfl
  | cons y ys ih =>
    have hy : y ≠ x := h y (List.mem_cons_self _ _)
    simp only [List.foldl_cons]
    rw [List.erase_cons_tail (by simpa using fun hxy => hy (by simp [hxy]))]
    exact ih _ (fun z hz => h z (List.mem_cons_of_mem _ hz))

/-- On a duplicate-free list, removing (first occurrence of) every
`p`-element leaves exactly the non-`p` elements, in order. -/
theorem foldl_erase_filter {α : Type} [DecidableEq α] (p : α → Bool)
    (l : List α) (h : l.Nodup) :
    (l.filter p).foldl (fun acc x => acc.erase x) l
      = l.filter (fun a => !(p a)) := by
  induction l with
  | nil => rfl
  | cons x xs ih =>
    have hx : x ∉ xs := (List.nodup_cons.1 h).1
    have hxs : xs.Nodup := (List.nodup_cons.1 h).2
    by_cases hp : p x
    · rw [List.filter_cons_of_pos (by simpa using hp), List.foldl_cons,
        List.erase_cons_head]
      rw [List.filter_cons_of_neg (by simp [hp])]
      exact ih hxs
    · rw [List.filter_cons_of_neg (by simpa using hp)]
      rw [foldl_erase_cons x xs (xs.filter p)
        (fun y hy => fun hyx => hx (hyx ▸ (List.mem_of_mem_filter hy)))]
      rw [List.filter_cons_of_pos (by simp [hp])]
      rw [ih hxs]

/-- Counterexample to C5 as stated: two ordered PyCode blocks with keys
2 then 1 are hoisted in their original order, not sorted by the key. -/
theorem C5_counterexample :
    moduleReorder
        [ModuleItem.pyCode ⟨"a", some 2, false, false, "public"⟩,
         ModuleItem.pyCode ⟨"b", some 1, false, false, "public"⟩]
      = [ModuleItem.pyCode ⟨"a", some 2, false, false, "public"⟩,
         ModuleItem.pyCode ⟨"b", some 1, false, false, "public"⟩] ∧
    moduleReorder
        [ModuleItem.pyCode ⟨"a", some 2, false, false, "public"⟩,
         ModuleItem.pyCode ⟨"b", some 1, false, false, "public"⟩]
      ≠ [ModuleItem.pyCode ⟨"b", some 1, false, false, "public"⟩,
         ModuleItem.pyCode ⟨"a", some 2, false, false, "public"⟩] := by
  constructor
  · decide
  · decide

/-- C5 (amended): on a duplicate-free item list, `generateModule` hoists
the PyCode items carrying an `order` value to the front in their original
relative order — it does not sort them by that key — and the remaining
items follow in their original order. -/
theorem C5_hoist_in_original_order (items : List ModuleItem)
    (hnd : items.Nodup) :
    moduleReorder items
      = items.filter ModuleItem.isOrderedPyCode
        ++ items.filter (fun i => !(ModuleItem.isOrderedPyCode i)) := by
  simp only [moduleReorder]
  rw [foldl_erase_filter ModuleItem.isOrderedPyCode items hnd]

/-- Witness for the amended C5. -/
theorem C5_hoist_in_original_order_witness :
    moduleReorder
        [ModuleItem.defineItem ⟨"D", "D", "1", false, false⟩,
         ModuleItem.pyCode ⟨"a", some 2, false, false, "public"⟩,
         ModuleItem.pyCode ⟨"b", some 1, false, false, "public"⟩]
      = List.filter ModuleItem.isOrderedPyCode
          [ModuleItem.defineItem ⟨"D", "D", "1", false, false⟩,
           ModuleItem.pyCode ⟨"a", some 2, false, false, "public"⟩,
           ModuleItem.pyCode ⟨"b", some 1, false, false, "public"⟩]
        ++ List.filter (fun i => !(ModuleItem.isOrderedPyCode i))
          [ModuleItem.defineItem ⟨"D", "D", "1", false, false⟩,
           ModuleItem.pyCode ⟨"a", some 2, false, false, "public"⟩,
           ModuleItem.pyCode ⟨"b", some 1, false, false, "public"⟩] :=
  C5_hoist_in_original_order _ (by decide)

/-- The synthesized internal type name of an anonymous enum:
`f"_enum_{name.replace('@', '').strip()}"`. -/
def anonEnumName (enum : EnumDef) : String :=
  ("_enum_") ++ pyStrip (⟨replaceC ("@").data [] enum.name.data⟩ : String)

/-- One emitted member line of an enum body (empty for ignored
members). -/
def enumMemberLine (indent : String) (v : EnumValueDef) : String :=
  if v.ignored || v.piIgnored then ""
  else indent ++ "    " ++ pyOr v.pyName v.name ++ " = auto()\n"

/-- One emitted module-scope rebinding line for an enum member (empty for
ignored members). -/
def enumRebindLine (indent ename : String) (v : EnumValueDef) : String :=
  if v.ignored || v.piIgnored then ""
  else indent ++ pyOr v.pyName v.name ++ " = " ++ ename ++ "."
    ++ pyOr v.pyName v.name ++ "\n"

theorem enum_member_fold (indent : String) (items : List EnumValueDef)
    (s : String) :
    items.foldl
      (fun s v => if v.ignored || v.piIgnored then s
        else s ++ indent ++ "    " ++ pyOr v.pyName v.name ++ " = auto()\n")
      s
      = s ++ sjoin (items.map (enumMemberLine indent)) := by
  apply foldl_emit
  intro s v
  by_cases h : (v.ignored || v.piIgnored) = true
  · rw [if_pos h]
    simp [enumMemberLine, h, String.append_empty]
  · rw [if_neg h]
    simp only [enumMemberLine]
    rw [if_neg h]
    simp [String.append_assoc]

theorem enum_rebind_fold (indent ename : String)
    (items : List EnumValueDef) (s : String) :
    items.foldl
      (fun s v => if v.ignored || v.piIgnored then s
        else s ++ indent ++ pyOr v.pyName v.name ++ " = " ++ ename ++ "."
          ++ pyOr v.pyName v.name ++ "\n") s
      = s ++ sjoin (items.map (enumRebindLine indent ename)) := by
  apply foldl_emit
  intro s v
  by_cases h : (v.ignored || v.piIgnored) = true
  · rw [if_pos h]
    simp [enumRebindLine, h, String.append_empty]
  · rw [if_neg h]
    simp only [enumRebindLine]
    rw [if_neg h]
    simp [String.append_assoc]

/-- Counterexample to C7 as stated: an anonymous enum (empty name) with a
single member still emits the module-level rebinding statement
`RED = _enum_.RED`; only the alias is skipped. -/
theorem C7_counterexample :
    genEnum (fun s _ => s)
        ⟨"", false, false, "public", [⟨"RED", "", false, false⟩]⟩ "" ""
      = "\nclass _enum_(IntEnum):\n    RED = auto()\nRED = _enum_.RED\n" ∧
    genEnum (fun s _ => s)
        ⟨"", false, false, "public", [⟨"RED", "", false, false⟩]⟩ "" ""
      ≠ "\nclass _enum_(IntEnum):\n    RED = auto()\n" := by
  constructor
  · decide
  · decide

/-- C7 (amended): a non-ignored anonymous enum (name empty or containing
`'@'`) synthesizes the internal type name
`"_enum_" ++ (name with '@' removed, stripped)` and skips the
module-level alias, but the per-member module-level rebinding statements
are still emitted (the rebinding loop is not guarded by the alias check);
only named enums additionally get the alias. -/
theorem C7_anonymous_enum (fixWx : String → Bool → String) (enum : EnumDef)
    (indent stream : String)
    (hanon : enum.name.data.contains '@' = true ∨ enum.name = "")
    (hni : enum.ignored = false) (hnpi : enum.piIgnored = false) :
    genEnum fixWx enum indent stream
      = stream ++ ("\n" ++ indent ++ "class " ++ anonEnumName enum ++ "("
          ++ (if containsSub (("Flags").data) (anonEnumName enum).data
              then ("IntFlag") else ("IntEnum")) ++ "):\n")
        ++ sjoin (enum.items.map (enumMemberLine indent))
        ++ sjoin (enum.items.map
            (enumRebindLine indent (anonEnumName enum))) := by
  have hc : (enum.name.data.contains '@' || enum.name == ("")) = true := by
    rcases hanon with h | h
    · rw [h]; rfl
    · rw [h]; rfl
  unfold genEnum
  rw [hni, hnpi]
  simp only [Bool.or_self, Bool.false_eq_true, if_false]
  rw [if_pos (by simpa using hc)]
  rw [enum_member_fold, enum_rebind_fold]
  rw [if_neg (by simp)]
  simp only [anonEnumName]
  simp [String.append_assoc]

/-- Witness for the amended C7. -/
theorem C7_anonymous_enum_witness :
    genEnum (fun s _ => s)
        ⟨"", false, false, "public", [⟨"RED", "", false, false⟩]⟩ ("") ("")
      = ("") ++ ("\n" ++ ("") ++ "class "
          ++ anonEnumName ⟨"", false, false, "public",
              [⟨"RED", "", false, false⟩]⟩ ++ "("
          ++ (if containsSub (("Flags").data)
                (anonEnumName ⟨"", false, false, "public",
                  [⟨"RED", "", false, false⟩]⟩).data
              then ("IntFlag") else ("IntEnum")) ++ "):\n")
        ++ sjoin ([(⟨"RED", "", false, false⟩ : EnumValueDef)].map
            (enumMemberLine ("")))
        ++ sjoin ([(⟨"RED", "", false, false⟩ : EnumValueDef)].map
            (enumRebindLine ("")
              (anonEnumName ⟨"", false, false, "public",
                [⟨"RED", "", false, false⟩]⟩))) :=
  C7_anonymous_enum (fun s _ => s) _ _ _ (Or.inr rfl) rfl rfl

/-- Like `foldl_emit`, with the append property required only for list
members. -/
theorem foldl_emit_mem {α : Type} (h : α → String) (g : String → α → String)
    (l : List α) (hg : ∀ a ∈ l, ∀ s, g s a = s ++ h a) (s : String) :
    l.foldl g s = s ++ sjoin (l.map h) := by
  induction l generalizing s with
  | nil => simp [sjoin_nil, String.append_empty]
  | cons a l ih =>
    simp only [List.foldl_cons, List.map_cons, sjoin_cons]
    rw [hg a (List.mem_cons_self _ _),
      ih (fun b hb s => hg b (List.mem_cons_of_mem _ hb) s),
      String.append_assoc]

/-- The signature line emitted for a function. -/
def functionSig (f : FunctionDef) : String :=
  "\ndef " ++ f.pyName ++ dotArgs (fixupArgs f.pyArgsString) ++ ":\n"

/-- The fragment `generateFunction` emits for one overload (empty when
the overload has no `pyName`). -/
def functionOvFrag (f : FunctionDef) : String :=
  if f.pyName = "" then ""
  else "\n@overload" ++ functionSig f ++ "    ...\n"

theorem genFunctionOv_emits (f : FunctionDef) (s : String) :
    genFunctionOv f s = s ++ functionOvFrag f := by
  by_cases h : f.pyName = ""
  · simp [genFunctionOv, functionOvFrag, h, String.append_empty]
  · unfold genFunctionOv functionOvFrag
    rw [if_neg h, if_neg h]
    simp [functionSig, String.append_assoc]
    all_goals rfl

/-- The fragment `generateMethod` emits for one overload signature that is
selected as itself by the guard loop and is not a destructor. -/
def methodOvFragSel (mm : String → Option String) (indent : String)
    (nameArg : Option String) (method : MethodDef) : String :=
  "\n" ++ indent ++ "@overload"
  ++ (if method.isStatic then "\n" ++ indent ++ "@staticmethod" else "")
  ++ ("\n" ++ indent ++ "def " ++ methodName mm nameArg method
    ++ methodArgs method.isStatic method.pyArgsString ++ ":\n")
  ++ ((indent ++ "    ") ++ "...\n")

/-- The docstring body `generateMethod` emits for the final signature. -/
def methodDocBody (nci : String → Nat → String)
    (indent2 docstring : String) : String :=
  indent2 ++ "\"\"\"\n"
  ++ (if pyStrip docstring ≠ "" then nci docstring indent2.length else "")
  ++ (indent2 ++ "\"\"\"\n")

theorem genMethodOv_sel (mm : String → Option String) (mo : MethodDef)
    (indent : String) (nameArg : Option String) (s : String)
    (hni : mo.ignored = false) (hnd : mo.isDtor = false) :
    genMethodOv mm mo indent nameArg s
      = s ++ methodOvFragSel mm indent nameArg mo := by
  have hsel : mo.all.find? methodSelGuard = some mo :=
    List.find?_cons_of_pos _ (by simp [methodSelGuard, hni])
  unfold genMethodOv
  simp only [hsel]
  rw [if_neg (by simp [hnd])]
  by_cases hst : mo.isStatic = true
  · simp [methodOvFragSel, hst, String.append_assoc]
    all_goals rfl
  · simp [methodOvFragSel, hst, String.append_assoc]
    all_goals rfl

/-- Counterexample to C1 as stated: a function with two recorded
signatures emits the alternate marked with `@overload` and a placeholder
body, followed by the primary signature which is *also* marked with
`@overload` (and carries the docstring body) — not by an unmarked final
signature as the claim requires. -/
theorem C1_counterexample :
    genFunction (fun s _ => s)
        ⟨"f", "(a)", "doc\n", [⟨"g", "(b)", "gdoc\n", []⟩]⟩ ""
      = "\n@overload\ndef g(b):\n    ...\n\n@overload\ndef f(a):\n    \"\"\"\ndoc\n    \"\"\"\n" ∧
    genFunction (fun s _ => s)
        ⟨"f", "(a)", "doc\n", [⟨"g", "(b)", "gdoc\n", []⟩]⟩ ""
      ≠ "\n@overload\ndef g(b):\n    ...\n\ndef f(a):\n    \"\"\"\ndoc\n    \"\"\"\n" := by
  constructor
  · decide
  · decide

/-- C1 (amended): a callable with N ≥ 2 recorded signatures emits the
N − 1 alternate signatures first, in original order, each marked with
`@overload` and carrying the `...` placeholder body, followed by exactly
one final signature (the primary), which is *also* marked with
`@overload` and whose body carries the docstring (as re-indented by the
external `nci` collaborator).  The first conjunct covers
`generateFunction` (alternates with empty `pyName` contribute an empty
fragment); the second covers `generateMethod` for a chain of non-ignored,
non-destructor signatures. -/
theorem C1_overload_emission :
    (∀ (nci : String → Nat → String) (f : FunctionDef) (stream : String),
      f.pyName ≠ "" → f.overloads ≠ [] →
      genFunction nci f stream
        = stream ++ sjoin (f.overloads.map functionOvFrag)
          ++ ("\n@overload" ++ functionSig f
            ++ ("    \"\"\"\n" ++ nci f.pyDocstring 4 ++ "    \"\"\"\n"))) ∧
    (∀ (nci : String → Nat → String) (mm : String → Option String)
        (m : MethodDef) (indent stream : String),
      m.ignored = false → m.isDtor = false → m.overloads ≠ [] →
      (∀ mo ∈ m.overloads, mo.ignored = false ∧ mo.isDtor = false) →
      genMethod nci mm m indent none none stream
        = stream ++ sjoin (m.overloads.map
            (methodOvFragSel mm indent (some (methodName mm none m))))
          ++ ("\n" ++ indent ++ "@overload"
            ++ (if m.isStatic then "\n" ++ indent ++ "@staticmethod"
                else "")
            ++ ("\n" ++ indent ++ "def " ++ methodName mm none m
              ++ methodArgs m.isStatic m.pyArgsString ++ ":\n")
            ++ methodDocBody nci (indent ++ "    ")
              (m.pyDocstring.getD ("")))) := by
  constructor
  · intro nci f stream hname hov
    have hho : f.hasOverloads = true := by
      simp [FunctionDef.hasOverloads, hov]
    unfold genFunction
    rw [if_neg hname]
    simp only [hho, if_true]
    rw [foldl_emit functionOvFrag _ (fun s g => genFunctionOv_emits g s)
      f.overloads stream]
    simp [functionSig, String.append_assoc]
    all_goals rfl
  · intro nci mm m indent stream hni hnd hov hos
    have hsel : m.all.find? methodSelGuard = some m :=
      List.find?_cons_of_pos _ (by simp [methodSelGuard, hni])
    have hho : m.hasOverloads = true := by
      simp [MethodDef.hasOverloads, hov]
    unfold genMethod
    simp only [hsel]
    rw [if_neg (by simp [hnd])]
    simp only [hho, if_true]
    rw [foldl_emit_mem (methodOvFragSel mm indent
        (some (methodName mm none m))) _ m.overloads
      (fun mo hmo s => genMethodOv_sel mm mo indent
        (some (methodName mm none m)) s (hos mo hmo).1 (hos mo hmo).2)
      stream]
    by_cases hst : m.isStatic = true <;>
      by_cases hd : pyStrip (m.pyDocstring.getD ("")) = "" <;>
      simp [methodDocBody, hst, hd, String.append_assoc] <;>
      rfl

/-- Witness for the amended C1 at a function with one overload and a
method with one overload. -/
theorem C1_overload_emission_witness :
    genFunction (fun s _ => s)
        ⟨"f", "(a)", "doc\n", [⟨"g", "(b)", "gdoc\n", []⟩]⟩ ""
      = "" ++ sjoin ([(⟨"g", "(b)", "gdoc\n", []⟩ : FunctionDef)].map
            functionOvFrag)
        ++ ("\n@overload"
          ++ functionSig ⟨"f", "(a)", "doc\n", [⟨"g", "(b)", "gdoc\n", []⟩]⟩
          ++ ("    \"\"\"\n" ++ (fun (s : String) (_ : Nat) => s) ("doc\n") 4
            ++ "    \"\"\"\n")) :=
  C1_overload_emission.1 (fun s _ => s)
    ⟨"f", "(a)", "doc\n", [⟨"g", "(b)", "gdoc\n", []⟩]⟩ ""
    (by decide) (by simp)

/-- A method whose whole overload chain is destructor-flagged emits
nothing: whichever signature the selection loop picks, the `isDtor` check
returns the stream unchanged. -/
theorem genMethod_dtor_chain (nci : String → Nat → String)
    (mm : String → Option String) (m : MethodDef) (indent : String)
    (nameArg docArg : Option String) (stream : String)
    (hall : ∀ x ∈ m.all, x.isDtor = true) :
    genMethod nci mm m indent nameArg docArg stream = stream := by
  unfold genMethod
  cases hfind : m.all.find? methodSelGuard with
  | none => simp [hfind]
  | some method =>
    have hmem : method ∈ m.all := List.mem_of_find?_eq_some hfind
    simp [hfind, hall method hmem]

/-- Counterexample to C9 as stated: a destructor node whose (contrived)
overload chain contains a non-destructor signature does contribute output:
the selection loop skips the ignored destructor and emits the
alternate. -/
theorem C9_counterexample :
    genMethod (fun s _ => s) (fun _ => none)
        ⟨"~A", "", "()", some (""), true, false, false, false, true,
          "public",
          [⟨"X", "X", "()", some (""), false, false, false, false, false,
            "public", []⟩]⟩ "" none none ""
      = "\ndef X(self):\n    \"\"\"\n    \"\"\"\n" ∧
    genMethod (fun s _ => s) (fun _ => none)
        ⟨"~A", "", "()", some (""), true, false, false, false, true,
          "public",
          [⟨"X", "X", "()", some (""), false, false, false, false, false,
            "public", []⟩]⟩ "" none none ""
      ≠ "" := by
  constructor
  · decide
  · decide

/-- C9 (amended): provided every signature in a destructor's overload
chain is itself flagged as a destructor — which holds for all
extractor-produced trees, where destructors are never overloaded — a
destructor contributes no output in any emission path: `generateMethod`
returns the stream unchanged, and in `generateClass` a class whose single
item is such a destructor (of any protection) emits exactly what the same
class with no items emits (public destructors are routed to the `ctors`
group and skipped there; protected ones reach `generateMethod`, which
drops them). -/
theorem C9_no_dtor_output :
    (∀ (nci : String → Nat → String) (mm : String → Option String)
        (m : MethodDef) (indent : String) (nameArg docArg : Option String)
        (stream : String),
      (∀ x ∈ m.all, x.isDtor = true) →
      genMethod nci mm m indent nameArg docArg stream = stream) ∧
    (∀ (nci : String → Nat → String) (mm : String → Option String)
        (fixWx : String → Bool → String) (cleanType : String → String)
        (k : ClassDef) (d : MethodDef) (indent stream : String),
      (∀ x ∈ d.all, x.isDtor = true) →
      k.items = [ClassItem.method d] →
      genClass nci mm fixWx cleanType k indent stream
        = genClass nci mm fixWx cleanType
            { k with items := [] } indent stream) := by
  constructor
  · intro nci mm m indent nameArg docArg stream hall
    exact genMethod_dtor_chain nci mm m indent nameArg docArg stream hall
  · intro nci mm fixWx cleanType k d indent stream hall hitems
    have hd : d.isDtor = true := hall d (List.mem_cons_self _ _)
    have hgm : ∀ (ind : String) (na da : Option String) (s : String),
        genMethod nci mm d ind na da s = s :=
      fun ind na da s => genMethod_dtor_chain nci mm d ind na da s hall
    by_cases hik : (k.ignored || k.piIgnored) = true
    · unfold genClass
      simp [hik]
    · unfold genClass
      simp only [hitems]
      by_cases hpub : d.protection == ("public") <;>
        by_cases hprot : d.protection == ("protected") <;>
        simp [hik, ClassItem.isEnumsItem, ClassItem.isEnumItem,
          ClassItem.isCtorItem, ClassItem.protection, hd, hpub, hprot,
          hgm, classDispatch]

/-- Witness for the amended C9 at a concrete plain destructor. -/
theorem C9_no_dtor_output_witness :
    genMethod (fun s _ => s) (fun _ => none)
        ⟨"~A", "", "()", some (""), false, false, false, false, true,
          "public", []⟩ "" none none "S" = "S" :=
  C9_no_dtor_output.1 (fun s _ => s) (fun _ => none)
    ⟨"~A", "", "()", some (""), false, false, false, false, true,
      "public", []⟩ "" none none "S" (by decide)

theorem genClassList_nil (nci : String → Nat → String)
    (mm : String → Option String) (fixWx : String → Bool → String)
    (cleanType : String → String) (indent stream : String) :
    genClassList nci mm fixWx cleanType [] indent stream = stream := by
  unfold genClassList
  rfl

/-- What `generateMethod` emits when `generateClass` hands it a public
constructor: the call passes `name='__init__'` and
`docstring=klass.pyDocstring`, so the emitted body carries the class
docstring whenever it is nonempty, regardless of the constructor's own
`pyDocstring`. -/
theorem genMethod_ctor (nci : String → Nat → String)
    (mm : String → Option String) (c : MethodDef)
    (indent2 classDoc s : String)
    (hcig : c.ignored = false) (hcd : c.isDtor = false)
    (hcst : c.isStatic = false) (hcov : c.overloads = [])
    (hmm : mm ("__init__") = none) (hkd : classDoc ≠ "") :
    genMethod nci mm c indent2 (some ("__init__")) (some classDoc) s
      = s ++ ("\n" ++ indent2 ++ "def __init__"
          ++ methodArgs false c.pyArgsString ++ ":\n")
        ++ methodDocBody nci (indent2 ++ "    ") classDoc := by
  have hsel : c.all.find? methodSelGuard = some c :=
    List.find?_cons_of_pos _ (by simp [methodSelGuard, hcig])
  have hname : methodName mm (some ("__init__")) c = ("__init__") := by
    simp [methodName, pyOr, hmm]
  have hho : c.hasOverloads = false := by
    simp [MethodDef.hasOverloads, hcov]
  unfold genMethod
  simp only [hsel]
  rw [if_neg (by simp [hcd])]
  by_cases hd : pyStrip classDoc = "" <;>
    simp [hho, hcst, hname, hkd, hd, methodDocBody,
      String.append_assoc]

/-- Counterexample to C8 as stated: a constructor with its own docstring
(`CTORDOC`) inside a class with docstring `KDOC` is emitted with the class
docstring as its body — not with the constructor-specific docstring the
claim's fallback would require. -/
theorem C8_counterexample :
    genClass (fun s _ => s) (fun _ => none) (fun s _ => s) (fun s => s)
        ⟨"A", "A", "KDOC\n", false, false, none, [], [], [],
          [ClassItem.method ⟨"A", "", "()", some ("CTORDOC\n"), false,
            false, false, true, false, "public", []⟩]⟩ "" ""
      = "\nclass A:\n    \"\"\"\nKDOC\n    \"\"\"\n\n    def __init__(self):\n        \"\"\"\nKDOC\n        \"\"\"\n# end of class A\n\n" ∧
    genClass (fun s _ => s) (fun _ => none) (fun s _ => s) (fun s => s)
        ⟨"A", "A", "KDOC\n", false, false, none, [], [], [],
          [ClassItem.method ⟨"A", "", "()", some ("CTORDOC\n"), false,
            false, false, true, false, "public", []⟩]⟩ "" ""
      ≠ "\nclass A:\n    \"\"\"\nKDOC\n    \"\"\"\n\n    def __init__(self):\n        \"\"\"\nCTORDOC\n        \"\"\"\n# end of class A\n\n" := by
  constructor
  · unfold genClass genClassList
    decide
  · unfold genClass genClassList
    decide

/-- C8 (amended): an emitted constructor is renamed to the canonical
initializer name `__init__`, and a `self` first parameter is injected into
its non-static signature; but its body does not merely fall back to the
class docstring when no constructor-specific docstring exists — it always
carries the owning class's docstring (nonempty here), regardless of the
constructor's own `pyDocstring` (which is unconstrained below; the
constructor's docstring would be consulted only if the class docstring
were empty). -/
theorem C8_ctor_emission (nci : String → Nat → String)
    (mm : String → Option String) (fixWx : String → Bool → String)
    (cleanType : String → String) (k : ClassDef) (c : MethodDef)
    (indent stream : String)
    (hki : k.ignored = false) (hkpi : k.piIgnored = false)
    (hpb : k.piBases = none) (hb : k.bases = [])
    (htp : k.templateParams = []) (hic : k.innerclasses = [])
    (hit : k.items = [ClassItem.method c])
    (hcprot : c.protection = "public") (hcc : c.isCtor = true)
    (hcd : c.isDtor = false) (hcig : c.ignored = false)
    (hcst : c.isStatic = false) (hcov : c.overloads = [])
    (hmm : mm ("__init__") = none) (hkd : k.pyDocstring ≠ "") :
    genClass nci mm fixWx cleanType k indent stream
      = stream ++ ("\n" ++ indent ++ "class " ++ pyOr k.pyName k.name
          ++ ":\n")
        ++ ((indent ++ "    ") ++ "\"\"\"\n"
          ++ nci k.pyDocstring (indent ++ "    ").length
          ++ (indent ++ "    ") ++ "\"\"\"\n")
        ++ ("\n" ++ (indent ++ "    ") ++ "def __init__"
          ++ methodArgs false c.pyArgsString ++ ":\n")
        ++ methodDocBody nci ((indent ++ "    ") ++ "    ") k.pyDocstring
        ++ (indent ++ "# end of class " ++ pyOr k.pyName k.name
          ++ "\n\n") := by
  unfold genClass
  rw [if_neg (by simp [hki, hkpi])]
  simp only [hit, hpb, hb, htp, hic, genClassList_nil]
  simp [ClassItem.isEnumsItem, ClassItem.isEnumItem, ClassItem.isCtorItem,
    ClassItem.protection, hcprot, hcc, hcd, classDispatch]
  rw [genMethod_ctor nci mm c _ _ _ hcig hcd hcst hcov hmm hkd]
  simp [String.append_assoc]

/-- Witness for the amended C8 (constructor's own docstring `CTORDOC`
present but unused). -/
theorem C8_ctor_emission_witness :
    genClass (fun s _ => s) (fun _ => none) (fun s _ => s) (fun s => s)
        ⟨"A", "A", "KDOC\n", false, false, none, [], [], [],
          [ClassItem.method ⟨"A", "", "()", some ("CTORDOC\n"), false,
            false, false, true, false, "public", []⟩]⟩ ("") ("")
      = ("") ++ ("\n" ++ ("") ++ "class " ++ pyOr ("A") ("A") ++ ":\n")
        ++ ((("") ++ "    ") ++ "\"\"\"\n"
          ++ (fun (s : String) (_ : Nat) => s) ("KDOC\n")
            (("" : String) ++ "    ").length
          ++ (("") ++ "    ") ++ "\"\"\"\n")
        ++ ("\n" ++ (("") ++ "    ") ++ "def __init__"
          ++ methodArgs false ("()") ++ ":\n")
        ++ methodDocBody (fun s _ => s) ((("") ++ "    ") ++ "    ")
          ("KDOC\n")
        ++ (("") ++ "# end of class " ++ pyOr ("A") ("A") ++ "\n\n") :=
  C8_ctor_emission (fun s _ => s) (fun _ => none) (fun s _ => s)
    (fun s => s)
    ⟨"A", "A", "KDOC\n", false, false, none, [], [], [],
      [ClassItem.method ⟨"A", "", "()", some ("CTORDOC\n"), false, false,
        false, true, false, "public", []⟩]⟩
    ⟨"A", "", "()", some ("CTORDOC\n"), false, false, false, true, false,
      "public", []⟩ ("") ("") rfl rfl rfl rfl rfl rfl rfl rfl rfl rfl rfl
    rfl rfl rfl (by decide)

end Phoenix
